import Mathlib

/-!
Verification of the clvm_tools_rs peephole optimizer
(`src/classic/clvm_tools/stages/stage_2/optimize.rs`).

The expression arena is embedded as a plain inductive tree `SExp`
(atoms are byte strings, pairs are ordered node pairs); arena handles are
compared by deep structural equality, which is `=` on `SExp`.  Fallible
Rust code returning `Result<NodePtr, EvalErr>` becomes `Except Err SExp`.
The fixed-point driver `optimize_sexp_` loops until no rule changes the
tree, which has no structural termination argument, so the driver takes an
explicit fuel argument; exhausting the fuel yields the distinguished error
`Err.noFuel`, which no source construct produces.  The external evaluator
consumed by constant folding is a parameter of type `Eval` (its cost
component is unused by the optimizer and is dropped).

Support code that lives outside the excerpted sources
(`pattern_match.rs`, `sexp.rs`, `NodePath.rs`, `util.rs`,
`helpers.rs`) is modelled from the spec; each such definition carries a
doc comment starting with `Modelled from the spec:`.
-/

namespace ClvmOpt

/-- An expression tree node: an atom (immutable byte string) or a pair. -/
inductive SExp where
  | atom : List Nat → SExp
  | pair : SExp → SExp → SExp
deriving DecidableEq, Repr

/-- The canonical nil value: the empty byte string. -/
def nilS : SExp := .atom []

/-- Errors: `evalErr` embeds the Rust `EvalErr(NodePtr, String)`;
`noFuel` is the artifact of the fuel embedding of the driver loop. -/
inductive Err where
  | noFuel : Err
  | evalErr : SExp → String → Err
deriving DecidableEq, Repr

deriving instance DecidableEq for Except

/-- The external evaluator contract `run_program(program, args)`,
keeping only the result node of the `Reduction` (the cost is unused). -/
abbrev Eval := SExp → SExp → Except Err SExp

/-- Modelled from the spec: bindings produced by the pattern matcher, a
mapping from capture name (here, the name atom's bytes) to subtree. -/
abbrev Bindings := List (List Nat × SExp)

/-- Modelled from the spec: lookup of a capture name in a binding set. -/
def lookupB : Bindings → List Nat → Option SExp
  | [], _ => none
  | (k, v) :: rest, n => if k = n then some v else lookupB rest n

/-- Modelled from the spec: add a binding, requiring a re-used capture
name to be bound to a structurally equal subtree. -/
def bindName (bs : Bindings) (name : List Nat) (v : SExp) : Option Bindings :=
  match lookupB bs name with
  | some v' => if v' = v then some bs else none
  | none => some ((name, v) :: bs)

/-- Modelled from the spec: the pattern matcher `match_sexp` from
`pattern_match.rs`.  A literal atom matches an identical atom; the
two-element form `(: . name)` (`:` is byte 58) captures any subtree;
`($ . name)` (`$` is byte 36) captures only an atom; pairs match
componentwise under the evolving binding set. -/
def match_sexp : SExp → SExp → Bindings → Option Bindings
  | .atom a, subj, bs =>
    match subj with
    | .atom b => if a = b then some bs else none
    | .pair _ _ => none
  | .pair (.atom [58]) (.atom name), subj, bs => bindName bs name subj
  | .pair (.atom [36]) (.atom name), subj, bs =>
    match subj with
    | .atom _ => bindName bs name subj
    | .pair _ _ => none
  | .pair pl pr, subj, bs =>
    match subj with
    | .pair sl sr =>
      match match_sexp pl sl bs with
      | some bs' => match_sexp pr sr bs'
      | none => none
    | .atom _ => none

/-- Byte string of the capture name `sexp`. -/
def sexpName : List Nat := [115, 101, 120, 112]

/-- Byte string of the capture name `args`. -/
def argsName : List Nat := [97, 114, 103, 115]

/-- Byte string of the capture name `first`. -/
def firstName : List Nat := [102, 105, 114, 115, 116]

/-- Byte string of the capture name `rest`. -/
def restName : List Nat := [114, 101, 115, 116]

/-- Byte string of the capture name `atom`. -/
def atomName : List Nat := [97, 116, 111, 109]

/-- A `(: . name)` capture node as produced by the template assembler. -/
def capture (n : List Nat) : SExp := .pair (.atom [58]) (.atom n)

/-- A `($ . name)` literal-capture node. -/
def litCapture (n : List Nat) : SExp := .pair (.atom [36]) (.atom n)

/-- Modelled from the spec: `enlist` from `sexp.rs`, building a
nil-terminated cons-list from its elements. -/
def enlist : List SExp → SExp
  | [] => .atom []
  | x :: xs => .pair x (enlist xs)

/-- Modelled from the spec: `proper_list` from `sexp.rs`: the elements of
a nil-terminated cons-list, or `none` when the spine does not end in nil.
(The source's `store` flag only controls whether elements are collected;
the `some`/`none` outcome is the same, so one function serves both.) -/
def properList : SExp → Option (List SExp)
  | .atom bs => if bs = [] then some [] else none
  | .pair f r =>
    match properList r with
    | some l => some (f :: l)
    | none => none

/-- Modelled from the spec: `non_nil` from `sexp.rs`. -/
def non_nil : SExp → Bool
  | .atom [] => false
  | _ => true

/-- Modelled from the spec: `quote` from `stage_2/helpers.rs`, wrapping a
value in the quote opcode: `(1 . v)`. -/
def quote (v : SExp) : SExp := .pair (.atom [1]) v

/-- Combined `seems_constant` (mode `false`) and `seems_constant_tail`
(mode `true`); the two Rust functions are mutually recursive and are
merged into one structurally recursive function with a mode flag. -/
def scAux : SExp → Bool → Bool
  | .atom bs, _ => bs.isEmpty
  | .pair op tl, false =>
    match op with
    | .atom b =>
      if b = [1] then true
      else if b = [8] then false
      else scAux tl true
    | .pair _ _ => scAux op false && scAux tl true
  | .pair l r, true => scAux l false && scAux r true

/-- `seems_constant`: a static test that a node's value is independent of
the runtime argument environment. -/
def seems_constant (s : SExp) : Bool := scAux s false

/-- `seems_constant_tail`: every element of the operand cons-list is
constant and the list is nil-terminated. -/
def seems_constant_tail (s : SExp) : Bool := scAux s true

/-- `constant_optimizer`: fold a constant, non-nil expression by running
the external evaluator with a null environment and quoting the result. -/
def constant_optimizer (e : Eval) (r : SExp) : Except Err SExp :=
  if seems_constant r && non_nil r then
    match e r nilS with
    | .error err => .error err
    | .ok res => .ok (quote res)
  else .ok r

/-- `is_args_call`: the single-byte atom 1, the whole-environment
reference. -/
def is_args_call : SExp → Bool
  | .atom b => decide (b = [1])
  | _ => false

/-- The assembled template `(a (q . (: . sexp)) (: . args))`
(`a` = opcode 2, `q` = opcode 1). -/
def CONS_Q_A_OPTIMIZER_PATTERN : SExp :=
  enlist [.atom [2], .pair (.atom [1]) (capture sexpName), capture argsName]

/-- `cons_q_a_optimizer`: the transform `(a (q . SEXP) @) => SEXP`. -/
def cons_q_a_optimizer (r : SExp) : Except Err SExp :=
  match match_sexp CONS_Q_A_OPTIMIZER_PATTERN r [] with
  | some t1 =>
    match lookupB t1 argsName, lookupB t1 sexpName with
    | some args, some sexp => if is_args_call args then .ok sexp else .ok r
    | _, _ => .ok r
  | none => .ok r

/-- The assembled template `(c (: . first) (: . rest))` (`c` = opcode 4). -/
def CONS_PATTERN : SExp :=
  enlist [.atom [4], capture firstName, capture restName]

/-- `cons_f`: first of `args`, statically cancelling an explicit cons,
otherwise building the expression `(f args)` (`f` = opcode 5). -/
def cons_f (args : SExp) : SExp :=
  match (match_sexp CONS_PATTERN args []).bind (fun t => lookupB t firstName) with
  | some first => first
  | none => .pair (.atom [5]) (.pair args nilS)

/-- `cons_r`: rest of `args`, statically cancelling an explicit cons,
otherwise building the expression `(r args)` (`r` = opcode 6). -/
def cons_r (args : SExp) : SExp :=
  match (match_sexp CONS_PATTERN args []).bind (fun t => lookupB t restName) with
  | some rest => rest
  | none => .pair (.atom [6]) (.pair args nilS)

/-- Modelled from the spec: `number_from_u8` from `util.rs`, decoding a
big-endian byte string to its numeric value (the spec's path encoding
describes minimal big-endian bytes of a non-negative path integer). -/
def number_from_u8 (bs : List Nat) : Nat :=
  bs.foldl (fun acc b => acc * 256 + b) 0

/-- Fuel-bounded digit extraction used by `u8_from_number`; the fuel is a
bound on the number of base-256 digits, not part of the source. -/
def u8Go : Nat → Nat → List Nat
  | 0, _ => []
  | f + 1, n => if n = 0 then [] else u8Go f (n / 256) ++ [n % 256]

/-- Modelled from the spec: `u8_from_number` from `util.rs`, the minimal
big-endian byte encoding of a number (`0` encodes to the empty string). -/
def u8_from_number (n : Nat) : List Nat := u8Go n n

/-- One step of `path_from_args`' walk over the bits of a path atom.
The source recurses on a freshly encoded atom for `v >> 1`; the fuel
(eight bits per input byte, plus one) bounds that walk so the function
stays structurally recursive. -/
def pfaGo : Nat → List Nat → SExp → SExp
  | 0, _, new_args => new_args
  | f + 1, bs, new_args =>
    let v := number_from_u8 bs
    if v ≤ 1 then new_args
    else if v % 2 = 1 then pfaGo f (u8_from_number (v / 2)) (cons_r new_args)
    else pfaGo f (u8_from_number (v / 2)) (cons_f new_args)

/-- `path_from_args`: rebuild the first/rest access chain named by a path
atom on top of `new_args`; a pair is returned as `new_args` unchanged. -/
def path_from_args : SExp → SExp → SExp
  | .atom bs, new_args => pfaGo (8 * bs.length + 1) bs new_args
  | .pair _ _, new_args => new_args

/-- `sub_args`: distribute `new_args` into `sexp` (the body of an apply)
as performed by the variable-reindexing rule. -/
def sub_args : SExp → SExp → SExp
  | .atom bs, new_args => path_from_args (.atom bs) new_args
  | .pair l r, new_args =>
    let first :=
      match l with
      | .pair _ _ => sub_args l new_args
      | .atom _ => l
    match properList first with
    | some args => enlist args
    | none => path_from_args (.pair l r) new_args

/-- The assembled template of `var_change_optimizer_cons_eval`, equal to
`CONS_Q_A_OPTIMIZER_PATTERN`. -/
def VAR_CHANGE_OPTIMIZER_CONS_EVAL_PATTERN : SExp :=
  enlist [.atom [2], .pair (.atom [1]) (capture sexpName), capture argsName]

/-- The non-constant-operand count computed by
`var_change_optimizer_cons_eval`'s fold: an atom, a quote-headed pair,
and a pair-headed operand that is not a proper list count as constant.
(The source's `foldM` closure returns `Ok` in every branch, so it is a
pure fold.) -/
def nonConstantCount (l : List SExp) : Nat :=
  l.foldl
    (fun acc val =>
      match val with
      | .atom _ => acc
      | .pair f _ =>
        match f with
        | .atom q => if q = [1] then acc else acc + 1
        | .pair _ _ =>
          if (properList val).isNone then acc else acc + 1)
    0

/-- Modelled from the spec: the monadic map `mapM` from `sexp.rs`,
stopping at the first error. -/
def mapME (f : SExp → Except Err SExp) : List SExp → Except Err (List SExp)
  | [] => .ok []
  | x :: xs =>
    match f x with
    | .error e => .error e
    | .ok y =>
      match mapME f xs with
      | .error e => .error e
      | .ok ys => .ok (y :: ys)

/-- `var_change_optimizer_cons_eval`: on `(a (q . SEXP) ARGS)`,
substitute `ARGS` through `SEXP`, optimize the result (as a whole when it
seems constant, else operand-wise), and keep the rewrite only when the
non-constant-operand count is below 1.  `opt` is the recursive entry into
the full optimizer. -/
def var_change_optimizer_cons_eval (opt : SExp → Except Err SExp) (r : SExp) :
    Except Err SExp :=
  match match_sexp VAR_CHANGE_OPTIMIZER_CONS_EVAL_PATTERN r [] with
  | none => .ok r
  | some t1 =>
    let original_args := (lookupB t1 argsName).getD nilS
    let original_call := (lookupB t1 sexpName).getD nilS
    let new_eval_sexp_args := sub_args original_call original_args
    if seems_constant new_eval_sexp_args then opt new_eval_sexp_args
    else
      match properList new_eval_sexp_args with
      | some new_operands =>
        match mapME opt new_operands with
        | .error e => .error e
        | .ok opt_operands =>
          if nonConstantCount opt_operands < 1 then .ok (enlist opt_operands)
          else .ok r
      | none => .ok r

/-- `children_optimizer`: recursively optimize every element of a proper
list whose head is not the quote opcode. -/
def children_optimizer (opt : SExp → Except Err SExp) (r : SExp) :
    Except Err SExp :=
  match properList r with
  | none => .ok r
  | some [] => .ok r
  | some (x :: xs) =>
    if (match x with | .atom b => decide (b = [1]) | _ => false) then .ok r
    else
      match mapME opt (x :: xs) with
      | .error e => .error e
      | .ok optimized => .ok (enlist optimized)

/-- The assembled template `(f (c (: . first) (: . rest)))`. -/
def CONS_OPTIMIZER_PATTERN_FIRST : SExp :=
  enlist [.atom [5], enlist [.atom [4], capture firstName, capture restName]]

/-- The assembled template `(r (c (: . first) (: . rest)))`. -/
def CONS_OPTIMIZER_PATTERN_REST : SExp :=
  enlist [.atom [6], enlist [.atom [4], capture firstName, capture restName]]

/-- `cons_optimizer`: the transforms `(f (c A B)) => A` and
`(r (c A B)) => B`. -/
def cons_optimizer (r : SExp) : Except Err SExp :=
  match (match_sexp CONS_OPTIMIZER_PATTERN_FIRST r []).bind
      (fun t => lookupB t firstName) with
  | some first => .ok first
  | none =>
    match (match_sexp CONS_OPTIMIZER_PATTERN_REST r []).bind
        (fun t => lookupB t restName) with
    | some rest => .ok rest
    | none => .ok r

/-- The assembled template `(f ($ . atom))`. -/
def FIRST_ATOM_PATTERN : SExp := enlist [.atom [5], litCapture atomName]

/-- The assembled template `(r ($ . atom))`. -/
def REST_ATOM_PATTERN : SExp := enlist [.atom [6], litCapture atomName]

/-- Modelled from the spec: `NodePath` composition (§4.2).  A path is an
integer whose bits after the leading sentinel 1 record first(0)/rest(1)
steps; `add_paths x y` appends `y`'s steps after `x`'s. -/
def add_paths (x y : Nat) : Nat :=
  x * 2 ^ Nat.log2 y + (y - 2 ^ Nat.log2 y)

/-- `path_optimizer`: collapse `(f N)` / `(r N)` over a literal path atom
`N` into the single composed path atom. -/
def path_optimizer (r : SExp) : Except Err SExp :=
  match match_sexp FIRST_ATOM_PATTERN r [], match_sexp REST_ATOM_PATTERN r [] with
  | some first, _ =>
    match lookupB first atomName with
    | some (.atom bs) =>
      .ok (.atom (u8_from_number (add_paths (number_from_u8 bs) 2)))
    | _ => .ok r
  | none, some rest =>
    match lookupB rest atomName with
    | some (.atom bs) =>
      .ok (.atom (u8_from_number (add_paths (number_from_u8 bs) 3)))
    | _ => .ok r
  | none, none => .ok r

/-- The assembled template `(q . 0)`. -/
def QUOTE_PATTERN_1 : SExp := .pair (.atom [1]) nilS

/-- `quote_null_optimizer`: the transform `(q . 0) => 0`. -/
def quote_null_optimizer (r : SExp) : Except Err SExp :=
  match match_sexp QUOTE_PATTERN_1 r [] with
  | some _ => .ok nilS
  | none => .ok r

/-- The assembled template `(a 0 . (: . rest))`. -/
def APPLY_NULL_PATTERN_1 : SExp :=
  .pair (.atom [2]) (.pair nilS (capture restName))

/-- `apply_null_optimizer`: the transform `(a 0 . ARGS) => 0`. -/
def apply_null_optimizer (r : SExp) : Except Err SExp :=
  match match_sexp APPLY_NULL_PATTERN_1 r [] with
  | some _ => .ok nilS
  | none => .ok r

/-- The `OPTIMIZERS` vector: the eight rules in the source's order, with
`opt` the recursive entry used by the two descending rules. -/
def ruleList (e : Eval) (opt : SExp → Except Err SExp) :
    List (SExp → Except Err SExp) :=
  [cons_optimizer,
   fun r => constant_optimizer e r,
   cons_q_a_optimizer,
   var_change_optimizer_cons_eval opt,
   children_optimizer opt,
   path_optimizer,
   quote_null_optimizer,
   apply_null_optimizer]

/-- The driver's inner `for` loop over the rules: the first rule whose
output differs (by deep structural equality) from `r` yields the new
tree; when no rule changes `r` the tree itself is returned; a rule error
aborts the pass. -/
def tryList : List (SExp → Except Err SExp) → SExp → Except Err SExp
  | [], r => .ok r
  | rule :: rest, r =>
    match rule r with
    | .error e => .error e
    | .ok res => if res = r then tryList rest r else .ok res

/-- One full pass of the rule set over `r`. -/
def onePass (e : Eval) (opt : SExp → Except Err SExp) (r : SExp) :
    Except Err SExp :=
  tryList (ruleList e opt) r

/-- The driver's `while` loop: while the current tree is a nil-terminated
proper list, run a pass; stop (returning the tree) when a pass leaves the
tree structurally unchanged.  The nested optimizer entry handed to the
rules is the full `optimize_sexp_` at the remaining fuel. -/
def optLoop (e : Eval) : Nat → SExp → Except Err SExp
  | 0, _ => .error .noFuel
  | fuel + 1, r =>
    if (properList r).isNone then .ok r
    else
      match
        onePass e
          (fun s =>
            match s with
            | .atom _ => Except.ok s
            | .pair _ _ => optLoop e fuel s)
          r
      with
      | .error err => .error err
      | .ok r' => if r' = r then .ok r else optLoop e fuel r'

/-- `optimize_sexp_`: atoms are returned immediately; pairs enter the
fixed-point loop. -/
def optimize_sexp_ (e : Eval) (fuel : Nat) (r : SExp) : Except Err SExp :=
  match fuel, r with
  | 0, _ => .error .noFuel
  | _ + 1, .atom bs => .ok (.atom bs)
  | fuel + 1, .pair a b => optLoop e fuel (.pair a b)

/-- `optimize_sexp`, the public wrapper around `optimize_sexp_`. -/
def optimize_sexp (e : Eval) (fuel : Nat) (r : SExp) : Except Err SExp :=
  optimize_sexp_ e fuel r

/-! ### Spec-side definitions used to state the claims -/

/-- Decomposition of the shape `(a (q . SEXP) ARGS)`: returns
`(SEXP, ARGS)` exactly on nodes of that shape.  Used to state, from the
spec's words, which nodes the apply/quote rules act on. -/
def cqaDecomp (r : SExp) : Option (SExp × SExp) :=
  match r with
  | .pair op (.pair (.pair q s) (.pair a tail)) =>
    if op = .atom [2] ∧ q = .atom [1] ∧ tail = .atom [] then some (s, a)
    else none
  | _ => none

/-- The spec's description of a non-constant operand in the
variable-reindexing rule's acceptance test: a pair that is quote-headed,
or pair-headed but not itself a proper list, counts as constant. -/
def operandNonConstant : SExp → Bool
  | .atom _ => false
  | .pair (.atom q) _ => decide (q ≠ [1])
  | s@(.pair (.pair _ _) _) => (properList s).isSome

/-- The first rule (in order) whose output differs from `r`:
`some` of the changed tree, `none` when no rule changes `r`; a rule
error aborts.  This is the pass as the spec's state machine words it. -/
def firstChanged : List (SExp → Except Err SExp) → SExp →
    Except Err (Option SExp)
  | [], _ => .ok none
  | rule :: rest, r =>
    match rule r with
    | .error e => .error e
    | .ok res => if res = r then firstChanged rest r else .ok (some res)

/-- The driver loop exactly as claim C3 words it: passes repeat until a
full pass produces a tree structurally equal to the pass's start; there
is no other exit. -/
def claimLoop (e : Eval) : Nat → SExp → Except Err SExp
  | 0, _ => .error .noFuel
  | fuel + 1, r =>
    match
      firstChanged
        (ruleList e
          (fun s =>
            match s with
            | .atom _ => Except.ok s
            | .pair _ _ => claimLoop e fuel s))
        r
    with
    | .error err => .error err
    | .ok none => .ok r
    | .ok (some r') => claimLoop e fuel r'

/-- The driver as claim C3 describes it: atoms return immediately, pairs
loop until a pass changes nothing. -/
def claimDriver (e : Eval) (fuel : Nat) (r : SExp) : Except Err SExp :=
  match fuel, r with
  | 0, _ => .error .noFuel
  | _ + 1, .atom bs => .ok (.atom bs)
  | fuel + 1, .pair a b => claimLoop e fuel (.pair a b)

/-- The driver loop as the amended claim words it: before each pass the
loop additionally stops (returning the current tree) when the current
tree is not a nil-terminated proper list. -/
def amendedLoop (e : Eval) : Nat → SExp → Except Err SExp
  | 0, _ => .error .noFuel
  | fuel + 1, r =>
    if (properList r).isNone then .ok r
    else
      match
        firstChanged
          (ruleList e
            (fun s =>
              match s with
              | .atom _ => Except.ok s
              | .pair _ _ => amendedLoop e fuel s))
          r
      with
      | .error err => .error err
      | .ok none => .ok r
      | .ok (some r') => amendedLoop e fuel r'

/-- The driver of the amended claim C3. -/
def amendedDriver (e : Eval) (fuel : Nat) (r : SExp) : Except Err SExp :=
  match fuel, r with
  | 0, _ => .error .noFuel
  | _ + 1, .atom bs => .ok (.atom bs)
  | fuel + 1, .pair a b => amendedLoop e fuel (.pair a b)

/-- Pointwise propagation of `ok` results between two fallible
functions; fuel monotonicity is stated with it. -/
def okMono (f g : SExp → Except Err SExp) : Prop :=
  ∀ x v, f x = .ok v → g x = .ok v

/-! ### Concrete inputs used by witnesses and counterexamples -/

/-- An evaluator that fails on every program: used to exhibit behavior
that must be independent of the evaluator, and error propagation. -/
def errEval : Eval := fun _ _ => .error (.evalErr nilS "fold error")

/-- The quoted atom `(q . 5)`. -/
def Q5 : SExp := .pair (.atom [1]) (.atom [5])

/-- The tree `(f (c (q . 5) 0))`: the cons rule rewrites it to the
dotted pair `(q . 5)`, which is not a nil-terminated proper list. -/
def T0 : SExp := enlist [.atom [5], enlist [.atom [4], Q5, nilS]]

/-- The operand `(8 (q . 1))`: a fixed point of the optimizer that the
reindexing rule's fold counts as non-constant. -/
def E8 : SExp := enlist [.atom [8], .pair (.atom [1]) (.atom [1])]

/-- The argument tree `(16 1 (8 (q . 1)))` of the C2 counterexample. -/
def ARGS2 : SExp := enlist [.atom [16], .atom [1], E8]

/-- The body `(16)` of the C2 counterexample: substitution returns the
argument tree wholesale for it. -/
def SEXP2 : SExp := enlist [.atom [16]]

/-- The C2 counterexample node `(a (q 16) (16 1 (8 (q . 1))))`. -/
def R2 : SExp := enlist [.atom [2], .pair (.atom [1]) SEXP2, ARGS2]

/-- The tree `(16)`: seems constant and non-nil, so the constant folder
invokes the evaluator on it. -/
def R16 : SExp := enlist [.atom [16]]

/-- The tree `(f (c 0 0))`, which optimizes (via cons-cancellation) to
nil: used to witness idempotence. -/
def TC7 : SExp := enlist [.atom [5], enlist [.atom [4], nilS, nilS]]

/-- An adversarial evaluator meeting the stated contract (total function
from program and arguments to a result node) that returns a strictly
larger node each time: used to show that termination of the fixed-point
loop depends on semantic properties of the external evaluator. -/
def growEval : Eval := fun r _ => .ok (.pair r r)

/-! ### Unfolding lemmas for the pattern matcher -/

theorem ms_atom (a : List Nat) (subj : SExp) (bs : Bindings) :
    match_sexp (.atom a) subj bs =
      (match subj with
       | .atom b => if a = b then some bs else none
       | .pair _ _ => none) := by
  cases subj <;> rfl

theorem ms_cap (n : List Nat) (subj : SExp) (bs : Bindings) :
    match_sexp (capture n) subj bs = bindName bs n subj := rfl

theorem ms_litcap (n : List Nat) (subj : SExp) (bs : Bindings) :
    match_sexp (litCapture n) subj bs =
      (match subj with
       | .atom _ => bindName bs n subj
       | .pair _ _ => none) := by
  cases subj <;> rfl

theorem ms_ppair (q w pr : SExp) (subj : SExp) (bs : Bindings) :
    match_sexp (.pair (.pair q w) pr) subj bs =
      (match subj with
       | .pair sl sr =>
         (match match_sexp (.pair q w) sl bs with
          | some bs' => match_sexp pr sr bs'
          | none => none)
       | .atom _ => none) := by
  cases subj <;> rfl

theorem ms_p1 (pr : SExp) (subj : SExp) (bs : Bindings) :
    match_sexp (.pair (.atom [1]) pr) subj bs =
      (match subj with
       | .pair sl sr =>
         (match match_sexp (.atom [1]) sl bs with
          | some bs' => match_sexp pr sr bs'
          | none => none)
       | .atom _ => none) := by
  cases subj <;> rfl

theorem ms_p2 (pr : SExp) (subj : SExp) (bs : Bindings) :
    match_sexp (.pair (.atom [2]) pr) subj bs =
      (match subj with
       | .pair sl sr =>
         (match match_sexp (.atom [2]) sl bs with
          | some bs' => match_sexp pr sr bs'
          | none => none)
       | .atom _ => none) := by
  cases subj <;> rfl

theorem ms_p4 (pr : SExp) (subj : SExp) (bs : Bindings) :
    match_sexp (.pair (.atom [4]) pr) subj bs =
      (match subj with
       | .pair sl sr =>
         (match match_sexp (.atom [4]) sl bs with
          | some bs' => match_sexp pr sr bs'
          | none => none)
       | .atom _ => none) := by
  cases subj <;> rfl

theorem ms_p5 (pr : SExp) (subj : SExp) (bs : Bindings) :
    match_sexp (.pair (.atom [5]) pr) subj bs =
      (match subj with
       | .pair sl sr =>
         (match match_sexp (.atom [5]) sl bs with
          | some bs' => match_sexp pr sr bs'
          | none => none)
       | .atom _ => none) := by
  cases subj <;> rfl

theorem ms_p6 (pr : SExp) (subj : SExp) (bs : Bindings) :
    match_sexp (.pair (.atom [6]) pr) subj bs =
      (match subj with
       | .pair sl sr =>
         (match match_sexp (.atom [6]) sl bs with
          | some bs' => match_sexp pr sr bs'
          | none => none)
       | .atom _ => none) := by
  cases subj <;> rfl

theorem ms_pnil (pr : SExp) (subj : SExp) (bs : Bindings) :
    match_sexp (.pair (.atom []) pr) subj bs =
      (match subj with
       | .pair sl sr =>
         (match match_sexp (.atom []) sl bs with
          | some bs' => match_sexp pr sr bs'
          | none => none)
       | .atom _ => none) := by
  cases subj <;> rfl

/-! ### C4: characterization of the constancy test -/

theorem seems_constant_tail_iff (t : SExp) :
    seems_constant_tail t = true ↔
      ∃ l, properList t = some l ∧ ∀ x ∈ l, seems_constant x = true := by
  induction t with
  | atom bs =>
    cases bs with
    | nil => simp [seems_constant_tail, scAux, properList]
    | cons b bs => simp [seems_constant_tail, scAux, properList]
  | pair a d iha ihd =>
    constructor
    · intro h
      have h2 : scAux a false = true ∧ scAux d true = true := by
        simpa [seems_constant_tail, scAux] using h
      obtain ⟨lr, hlr, hall⟩ := ihd.mp h2.2
      refine ⟨a :: lr, ?_, ?_⟩
      · simp [properList, hlr]
      · intro x hx
        rcases List.mem_cons.mp hx with hx | hx
        · subst hx; exact h2.1
        · exact hall x hx
    · rintro ⟨ll, hll, hall⟩
      rcases hr : properList d with _ | lr
      · rw [properList, hr] at hll; cases hll
      · rw [properList, hr] at hll
        have hl : ll = a :: lr := by
          simpa using hll.symm
        subst hl
        have h1 : seems_constant a = true := hall a (by simp)
        have h2 : seems_constant_tail d = true :=
          ihd.mpr ⟨lr, hr, fun x hx => hall x (by simp [hx])⟩
        simpa [seems_constant_tail, scAux, seems_constant] using
          And.intro h1 h2

/-- C4: `seems_constant` holds of an atom exactly when the atom is nil;
it holds of a pair exactly when the operator is the quote atom, or the
operator is not the environment opcode atom 8, a pair operator is itself
recursively constant, and the operand tail is a nil-terminated list of
recursively constant elements. -/
theorem seems_constant_characterization (bs : List Nat) (op tl : SExp) :
    (seems_constant (.atom bs) = true ↔ bs = []) ∧
    (seems_constant (.pair op tl) = true ↔
      (op = .atom [1] ∨
        (op ≠ .atom [8] ∧
          (∀ x y, op = .pair x y → seems_constant op = true) ∧
          ∃ l, properList tl = some l ∧ ∀ x ∈ l, seems_constant x = true))) := by
  constructor
  · simp [seems_constant, scAux, List.isEmpty_iff]
  · cases op with
    | atom b =>
      by_cases h1 : b = [1]
      · subst h1
        simp [seems_constant, scAux]
      · by_cases h8 : b = [8]
        · subst h8
          simp [seems_constant, scAux, h1]
        · have htail := seems_constant_tail_iff tl
          rw [seems_constant_tail] at htail
          simp [seems_constant, scAux, h1, h8, htail]
    | pair x y =>
      have htail := seems_constant_tail_iff tl
      rw [seems_constant_tail] at htail
      simp [seems_constant, scAux, htail]

/-- Witness for C4 at concrete inputs. -/
theorem seems_constant_characterization_witness :
    seems_constant (.pair (.atom [1]) (.atom [9])) = true ∧
    seems_constant (.atom [7]) = false := by
  constructor
  · exact (seems_constant_characterization [] (.atom [1]) (.atom [9])).2.mpr
      (Or.inl rfl)
  · have h := (seems_constant_characterization [7] (.atom []) (.atom [])).1
    simp only [Bool.not_eq_true] at h ⊢
    cases hsc : seems_constant (.atom [7])
    · rfl
    · exact absurd (h.mp hsc) (by simp)

/-! ### C5: the constant folder invokes the evaluator exactly on
constant, non-nil nodes -/

theorem non_nil_iff (r : SExp) : non_nil r = true ↔ r ≠ nilS := by
  cases r with
  | atom bs => cases bs <;> simp [non_nil, nilS]
  | pair a b => simp [non_nil, nilS]

/-- C5: `constant_optimizer` returns the evaluator's result on a null
environment, wrapped in a quote, exactly when the node seems constant
and is not nil; otherwise it returns the node unchanged. -/
theorem constant_optimizer_spec (e : Eval) (r : SExp) :
    (seems_constant r = true ∧ r ≠ nilS →
      constant_optimizer e r = Except.map quote (e r nilS)) ∧
    (¬(seems_constant r = true ∧ r ≠ nilS) →
      constant_optimizer e r = .ok r) := by
  have hc : (seems_constant r && non_nil r) = true ↔
      (seems_constant r = true ∧ r ≠ nilS) := by
    rw [Bool.and_eq_true, non_nil_iff]
  constructor
  · intro h
    rw [constant_optimizer, if_pos (hc.mpr h)]
    cases he : e r nilS <;> simp [Except.map, he]
  · intro h
    rw [constant_optimizer, if_neg (fun hcc => h (hc.mp hcc))]

/-- Witness for C5: the evaluator's error is surfaced on the constant
node `(16)`, and a non-constant atom is left unchanged. -/
theorem constant_optimizer_spec_witness :
    constant_optimizer errEval R16 = .error (.evalErr nilS "fold error") ∧
    constant_optimizer errEval (.atom [7]) = .ok (.atom [7]) := by
  constructor
  · have h := (constant_optimizer_spec errEval R16).1 ⟨by decide, by decide⟩
    simpa [errEval, Except.map] using h
  · exact (constant_optimizer_spec errEval (.atom [7])).2 (by decide)

/-! ### C10: atoms and dotted tops are returned unchanged -/

/-- C10: an atom is returned unchanged, and a pair whose top spine is
not a nil-terminated proper list is returned unchanged, for every
evaluator (so no rule, in particular no evaluator call, can contribute). -/
theorem optimize_sexp_outside_proper_list (e : Eval) (f : Nat) (r : SExp) :
    (∀ bs, r = .atom bs → optimize_sexp_ e (f + 1) r = .ok r) ∧
    (∀ a b, r = .pair a b → properList r = none →
      optimize_sexp_ e (f + 2) r = .ok r) := by
  constructor
  · rintro bs rfl; rfl
  · rintro a b rfl hnone
    show optLoop e (f + 1) (.pair a b) = .ok (.pair a b)
    simp only [optLoop, hnone]
    rfl

/-- Witness for C10: an atom, and the dotted pair `(q . 5)`. -/
theorem optimize_sexp_outside_proper_list_witness :
    optimize_sexp_ errEval 5 (.atom [7]) = .ok (.atom [7]) ∧
    optimize_sexp_ errEval 5 Q5 = .ok Q5 := by
  constructor
  · exact (optimize_sexp_outside_proper_list errEval 4 (.atom [7])).1 [7] rfl
  · exact (optimize_sexp_outside_proper_list errEval 3 Q5).2
      (.atom [1]) (.atom [5]) rfl (by decide)

/-! ### C9: rule errors propagate out of the driver -/

theorem closure_eq (e : Eval) (fuel : Nat) :
    (fun s =>
      match s with
      | .atom _ => Except.ok s
      | .pair _ _ => optLoop e fuel s) = optimize_sexp_ e (fuel + 1) := by
  funext s
  cases s <;> rfl

/-- C9: when the pass over the rules fails with an error, the driver
returns exactly that error (no partially optimized tree is produced). -/
theorem optimize_sexp_propagates_rule_errors (e : Eval) (f : Nat) (a b : SExp)
    (err : Err) (hp : (properList (.pair a b)).isSome = true)
    (hstep : onePass e (optimize_sexp_ e (f + 1)) (.pair a b) = .error err) :
    optimize_sexp_ e (f + 2) (.pair a b) = .error err := by
  obtain ⟨l, hl⟩ := Option.isSome_iff_exists.mp hp
  show optLoop e (f + 1) (.pair a b) = .error err
  simp only [optLoop, closure_eq, hl, hstep]
  rfl

/-- Witness for C9: the always-failing evaluator's error on the constant
node `(16)` is the driver's result. -/
theorem optimize_sexp_propagates_rule_errors_witness :
    optimize_sexp_ errEval 5 R16 = .error (.evalErr nilS "fold error") := by
  exact optimize_sexp_propagates_rule_errors errEval 3 (.atom [16]) (.atom [])
    (.evalErr nilS "fold error") (by decide) (by decide)

/-! ### C6: the apply/quote elimination rule -/

theorem is_args_call_iff (a : SExp) : is_args_call a = true ↔ a = .atom [1] := by
  cases a with
  | atom b => simp [is_args_call]
  | pair x y => simp [is_args_call]

theorem ms_cap' (n : List Nat) (subj : SExp) (bs : Bindings) :
    match_sexp (.pair (.atom [58]) (.atom n)) subj bs = bindName bs n subj := rfl

theorem match_cqa_some (r : SExp) (t : Bindings)
    (h : match_sexp CONS_Q_A_OPTIMIZER_PATTERN r [] = some t) :
    ∃ s a,
      r = .pair (.atom [2]) (.pair (.pair (.atom [1]) s) (.pair a (.atom []))) ∧
      t = [(argsName, a), (sexpName, s)] := by
  rw [show CONS_Q_A_OPTIMIZER_PATTERN =
      .pair (.atom [2])
        (.pair (.pair (.atom [1]) (capture sexpName))
          (.pair (capture argsName) (.atom []))) from rfl, ms_p2] at h
  cases r with
  | atom bs => simp at h
  | pair sl sr =>
    dsimp only at h
    rw [ms_atom] at h
    cases sl with
    | pair u v => simp at h
    | atom b2 =>
      dsimp only at h
      by_cases hb2 : ([2] : List Nat) = b2
      · subst hb2
        rw [if_pos rfl] at h
        dsimp only at h
        rw [ms_ppair] at h
        cases sr with
        | atom bs => simp at h
        | pair s2l s2r =>
          dsimp only at h
          rw [ms_p1] at h
          cases s2l with
          | atom bs => simp at h
          | pair s3l s3r =>
            dsimp only at h
            rw [ms_atom] at h
            cases s3l with
            | pair u v => simp at h
            | atom b1 =>
              dsimp only at h
              by_cases hb1 : ([1] : List Nat) = b1
              · subst hb1
                rw [if_pos rfl] at h
                dsimp only at h
                rw [show match_sexp (capture sexpName) s3r [] =
                    some [(sexpName, s3r)] from rfl] at h
                dsimp only at h
                simp only [capture] at h
                rw [ms_ppair] at h
                cases s2r with
                | atom bs => simp at h
                | pair s4l s4r =>
                  dsimp only at h
                  rw [ms_cap'] at h
                  rw [show bindName [(sexpName, s3r)] argsName s4l =
                      some [(argsName, s4l), (sexpName, s3r)] from rfl] at h
                  dsimp only at h
                  rw [ms_atom] at h
                  cases s4r with
                  | pair u v => simp at h
                  | atom be =>
                    dsimp only at h
                    by_cases hbe : ([] : List Nat) = be
                    · subst hbe
                      rw [if_pos rfl] at h
                      refine ⟨s3r, s4l, rfl, ?_⟩
                      simpa using h.symm
                    · simp [hbe] at h
              · simp [hb1] at h
      · simp [hb2] at h

/-- C6: `cons_q_a_optimizer` rewrites a node of the shape
`(a (q . SEXP) ARGS)` to `SEXP` exactly when `ARGS` is the single-byte
atom 1, and returns every other node unchanged. -/
theorem cons_q_a_optimizer_spec (r s a : SExp) :
    (cqaDecomp r = some (s, a) →
      cons_q_a_optimizer r = .ok (if a = .atom [1] then s else r)) ∧
    (cqaDecomp r = none → cons_q_a_optimizer r = .ok r) := by
  constructor
  · intro h
    have hr : r = .pair (.atom [2])
        (.pair (.pair (.atom [1]) s) (.pair a (.atom []))) := by
      unfold cqaDecomp at h
      split at h
      · rename_i op q s' a' tail
        split at h
        · rename_i hcond
          obtain ⟨h2, h1, htl⟩ := hcond
          obtain ⟨hs, ha⟩ := by simpa using h
          subst h2; subst h1; subst htl; subst hs; subst ha; rfl
        · cases h
      · cases h
    subst hr
    have hm : match_sexp CONS_Q_A_OPTIMIZER_PATTERN
        (.pair (.atom [2]) (.pair (.pair (.atom [1]) s) (.pair a (.atom []))))
        [] = some [(argsName, a), (sexpName, s)] := rfl
    simp only [cons_q_a_optimizer, hm]
    rw [show lookupB [(argsName, a), (sexpName, s)] argsName = some a from rfl]
    rw [show lookupB [(argsName, a), (sexpName, s)] sexpName = some s from rfl]
    dsimp only
    by_cases ha : a = .atom [1]
    · rw [if_pos ((is_args_call_iff a).mpr ha), if_pos ha]
    · rw [if_neg fun hc => ha ((is_args_call_iff a).mp hc), if_neg ha]
  · intro h
    cases hm : match_sexp CONS_Q_A_OPTIMIZER_PATTERN r [] with
    | none => simp [cons_q_a_optimizer, hm]
    | some t =>
      obtain ⟨s', a', hr, ht⟩ := match_cqa_some r t hm
      subst hr
      simp [cqaDecomp] at h

/-- Witness for C6: the rule fires on
`(a (q . #x63) 1)` and yields the quoted body. -/
theorem cons_q_a_optimizer_spec_witness :
    cons_q_a_optimizer
      (.pair (.atom [2])
        (.pair (.pair (.atom [1]) (.atom [99]))
          (.pair (.atom [1]) (.atom [])))) = .ok (.atom [99]) := by
  have h := (cons_q_a_optimizer_spec
      (.pair (.atom [2])
        (.pair (.pair (.atom [1]) (.atom [99]))
          (.pair (.atom [1]) (.atom []))))
      (.atom [99]) (.atom [1])).1 (by decide)
  simpa using h

/-! ### C2: the variable-reindexing rule's acceptance threshold -/

theorem ncc_general (l : List SExp) (acc : Nat) :
    List.foldl
      (fun acc val =>
        match val with
        | .atom _ => acc
        | .pair f _ =>
          match f with
          | .atom q => if q = [1] then acc else acc + 1
          | .pair _ _ =>
            if (properList val).isNone then acc else acc + 1)
      acc l
    = acc + (l.filter operandNonConstant).length := by
  induction l generalizing acc with
  | nil => simp
  | cons x xs ih =>
    rw [List.foldl_cons, ih, List.filter_cons]
    cases x with
    | atom bs => simp [operandNonConstant]
    | pair fx rx =>
      cases fx with
      | atom q =>
        by_cases hq : q = [1]
        · simp [operandNonConstant, hq]
        · simp only [operandNonConstant]
          simp only [hq, if_false]
          simp [hq]
          omega
      | pair u v =>
        rcases hpv : properList (SExp.pair (SExp.pair u v) rx) with _ | l'
        · simp [operandNonConstant, hpv]
        · simp only [operandNonConstant]
          simp [hpv]
          omega

theorem nonConstantCount_eq_filter (l : List SExp) :
    nonConstantCount l = (l.filter operandNonConstant).length := by
  have h := ncc_general l 0
  simpa [nonConstantCount] using h

/-- C2 (amended): after substituting ARGS into the body and recursively
optimizing each resulting operand, the rewritten node is returned exactly
when no resulting operand remains non-constant (an operand counted as
constant when it is an atom, a quote-headed pair, or a pair whose head is
a pair and which is itself not a nil-terminated proper list); whenever at
least one operand remains non-constant the original node is returned
unchanged. -/
theorem var_change_keeps_rewrite_iff_no_nonconstant
    (opt : SExp → Except Err SExp) (r : SExp) (t1 : Bindings)
    (args call na : SExp) (ops oops : List SExp)
    (hm : match_sexp VAR_CHANGE_OPTIMIZER_CONS_EVAL_PATTERN r [] = some t1)
    (hargs : lookupB t1 argsName = some args)
    (hcall : lookupB t1 sexpName = some call)
    (hna : sub_args call args = na)
    (hnc : seems_constant na = false)
    (hops : properList na = some ops)
    (hmap : mapME opt ops = .ok oops) :
    var_change_optimizer_cons_eval opt r =
      .ok (if (oops.filter operandNonConstant).length = 0
        then enlist oops else r) := by
  unfold var_change_optimizer_cons_eval
  rw [hm]
  simp only [hargs, hcall, Option.getD_some]
  rw [hna]
  simp only [hnc, Bool.false_eq_true, if_false]
  rw [hops]
  simp only [hmap]
  rw [nonConstantCount_eq_filter]
  by_cases hz : (oops.filter operandNonConstant).length = 0
  · rw [if_pos (by omega), if_pos hz]
  · rw [if_neg (by omega), if_neg hz]

/-- Witness for the amended C2 at the concrete node `R2`, whose
substituted operands keep exactly one non-constant member. -/
theorem var_change_keeps_rewrite_iff_no_nonconstant_witness :
    var_change_optimizer_cons_eval (optimize_sexp_ errEval 30) R2 = .ok R2 := by
  have h := var_change_keeps_rewrite_iff_no_nonconstant
    (optimize_sexp_ errEval 30) R2 [(argsName, ARGS2), (sexpName, SEXP2)]
    ARGS2 SEXP2 ARGS2
    [.atom [16], .atom [1], E8] [.atom [16], .atom [1], E8]
    (by decide) (by decide) (by decide) (by decide) (by decide) (by decide)
    (by decide)
  rw [if_neg (by decide)] at h
  exact h

/-- C2 counterexample: at the node `R2 = (a (q 16) (16 1 (8 (q . 1))))`
the substituted body is the argument list itself, its optimized operands
contain exactly one non-constant operand, and the original node — not
the (different) rewritten node — is returned, contradicting the claimed
"at most one" acceptance threshold. -/
theorem var_change_threshold_counterexample :
    sub_args SEXP2 ARGS2 = ARGS2 ∧
    seems_constant ARGS2 = false ∧
    properList ARGS2 = some [.atom [16], .atom [1], E8] ∧
    mapME (optimize_sexp_ errEval 30) [.atom [16], .atom [1], E8] =
      .ok [.atom [16], .atom [1], E8] ∧
    nonConstantCount [.atom [16], .atom [1], E8] = 1 ∧
    var_change_optimizer_cons_eval (optimize_sexp_ errEval 30) R2 = .ok R2 ∧
    R2 ≠ enlist [.atom [16], .atom [1], E8] := by
  decide

/-! ### C3: the fixed-point driver's rule order and exit condition -/

theorem tryList_eq_firstChanged (l : List (SExp → Except Err SExp)) (r : SExp) :
    tryList l r =
      (match firstChanged l r with
       | .error e => .error e
       | .ok none => .ok r
       | .ok (some x) => .ok x) := by
  induction l with
  | nil => rfl
  | cons rule rest ih =>
    simp only [tryList, firstChanged]
    rcases hr : rule r with e | res
    · rfl
    · by_cases hres : res = r
      · simp only [if_pos hres]
        exact ih
      · simp only [if_neg hres]

theorem firstChanged_some_ne (l : List (SExp → Except Err SExp)) (r x : SExp)
    (h : firstChanged l r = .ok (some x)) : x ≠ r := by
  induction l with
  | nil => simp [firstChanged] at h
  | cons rule rest ih =>
    simp only [firstChanged] at h
    rcases hr : rule r with e | res
    · simp only [hr] at h
      cases h
    · simp only [hr] at h
      by_cases hres : res = r
      · rw [if_pos hres] at h
        exact ih h
      · rw [if_neg hres] at h
        obtain rfl : res = x := by simpa using h
        exact hres

theorem optLoop_eq_amendedLoop (e : Eval) :
    ∀ fuel r, optLoop e fuel r = amendedLoop e fuel r := by
  intro fuel
  induction fuel with
  | zero => intro r; rfl
  | succ f ih =>
    intro r
    have hcl :
        ((fun s =>
          match s with
          | .atom _ => Except.ok s
          | .pair _ _ => optLoop e f s) : SExp → Except Err SExp) =
        (fun s =>
          match s with
          | .atom _ => Except.ok s
          | .pair _ _ => amendedLoop e f s) := by
      funext s
      cases s with
      | atom bs => rfl
      | pair a b => exact ih (.pair a b)
    simp only [optLoop, amendedLoop, onePass, hcl]
    by_cases hp : (properList r).isNone = true
    · rw [if_pos hp, if_pos hp]
    · rw [if_neg hp, if_neg hp]
      rw [tryList_eq_firstChanged]
      rcases hf : firstChanged
          (ruleList e
            ((fun s =>
              match s with
              | SExp.atom _ => Except.ok s
              | SExp.pair _ _ => amendedLoop e f s) : SExp → Except Err SExp))
          r with err | o
      · rfl
      · rcases o with _ | x
        · simp
        · have hx := firstChanged_some_ne _ _ _ hf
          simp only [if_neg hx]
          exact ih x

/-- C3 (amended): the driver tries the eight rules in the fixed order
cons-cancellation, constant-folding, apply-quote-elimination,
variable-reindexing, children-optimizer, path-compaction,
quote-nil-collapse, apply-nil-collapse; in each pass the first rule
whose output differs from the current tree by deep structural equality
replaces the current tree and the pass restarts from the first rule; the
loop terminates, returning the current tree, exactly when the current
tree (checked before each pass) is not a nil-terminated proper list, or
a full pass produces a tree structurally equal to the tree at the start
of the pass.  `amendedDriver` is that description written out; the
theorem states the code driver agrees with it everywhere. -/
theorem optimize_sexp_eq_amendedDriver (e : Eval) (fuel : Nat) (r : SExp) :
    optimize_sexp_ e fuel r = amendedDriver e fuel r := by
  match fuel, r with
  | 0, r => rfl
  | f + 1, .atom bs => rfl
  | f + 1, .pair a b => exact optLoop_eq_amendedLoop e f (.pair a b)

/-- C3 counterexample: on `(f (c (q . 5) 0))` the code driver rewrites
once to the dotted pair `(q . 5)` and stops because the tree is no
longer a proper list, although that pass changed the tree; the driver
described by the claim (`claimDriver`, which only stops on an unchanged
pass) instead starts another pass, whose constant-folding step consults
the evaluator and fails.  The two disagree at this input. -/
theorem optimize_sexp_differs_from_claimed_driver :
    optimize_sexp_ errEval 20 T0 = .ok Q5 ∧
    claimDriver errEval 20 T0 = .error (.evalErr nilS "fold error") ∧
    optimize_sexp_ errEval 20 T0 ≠ claimDriver errEval 20 T0 := by
  decide

/-! ### C7: fuel monotonicity of the optimizer -/

theorem mapME_mono (f g : SExp → Except Err SExp) (h : okMono f g) :
    ∀ l vs, mapME f l = .ok vs → mapME g l = .ok vs := by
  intro l
  induction l with
  | nil => intro vs hv; exact hv
  | cons x xs ih =>
    intro vs hv
    simp only [mapME] at hv ⊢
    rcases hx : f x with e | y
    · simp only [hx] at hv
      cases hv
    · simp only [hx] at hv
      rcases hxs : mapME f xs with e2 | ys
      · simp only [hxs] at hv
        cases hv
      · simp only [hxs] at hv
        simp only [h x y hx, ih ys hxs]
        exact hv

theorem tryList_mono (l l' : List (SExp → Except Err SExp))
    (hll : List.Forall₂ (fun a b => ∀ x v, a x = .ok v → b x = .ok v) l l')
    (r v : SExp) (h : tryList l r = .ok v) : tryList l' r = .ok v := by
  induction hll with
  | nil => exact h
  | cons hab htl ih =>
    rename_i a b as bs
    simp only [tryList] at h ⊢
    rcases ha : a r with e | res
    · simp only [ha] at h
      cases h
    · simp only [ha] at h
      simp only [hab r res ha]
      by_cases hres : res = r
      · rw [if_pos hres] at h ⊢
        exact ih h
      · rw [if_neg hres] at h ⊢
        exact h

theorem var_change_mono (f g : SExp → Except Err SExp) (h : okMono f g) :
    okMono (var_change_optimizer_cons_eval f)
      (var_change_optimizer_cons_eval g) := by
  intro x v hv
  unfold var_change_optimizer_cons_eval at hv ⊢
  rcases hm : match_sexp VAR_CHANGE_OPTIMIZER_CONS_EVAL_PATTERN x [] with _ | t1
  · simp only [hm] at hv ⊢
    exact hv
  · simp only [hm] at hv ⊢
    split at hv
    · rename_i hc
      rw [if_pos hc]
      exact h _ _ hv
    · rename_i hc
      rw [if_neg hc]
      split at hv
      · rename_i ops hops
        rcases hmap : mapME f ops with e2 | oops
        · simp only [hmap] at hv
          cases hv
        · simp only [hmap] at hv
          simp only [mapME_mono f g h ops oops hmap]
          exact hv
      · rename_i hops
        exact hv

theorem children_mono (f g : SExp → Except Err SExp) (h : okMono f g) :
    okMono (children_optimizer f) (children_optimizer g) := by
  intro x v hv
  unfold children_optimizer at hv ⊢
  rcases hp : properList x with _ | l
  · simp only [hp] at hv ⊢
    exact hv
  · rcases l with _ | ⟨y, ys⟩
    · simp only [hp] at hv ⊢
      exact hv
    · simp only [hp] at hv ⊢
      split at hv
      · rename_i hq
        rw [if_pos hq]
        exact hv
      · rename_i hq
        rw [if_neg hq]
        rcases hmap : mapME f (y :: ys) with e2 | oops
        · simp only [hmap] at hv
          cases hv
        · simp only [hmap] at hv
          simp only [mapME_mono f g h _ oops hmap]
          exact hv

theorem ruleList_mono (e : Eval) (f g : SExp → Except Err SExp)
    (h : okMono f g) :
    List.Forall₂ (fun a b => ∀ x v, a x = .ok v → b x = .ok v)
      (ruleList e f) (ruleList e g) := by
  unfold ruleList
  refine List.Forall₂.cons (fun x v hv => hv) ?_
  refine List.Forall₂.cons (fun x v hv => hv) ?_
  refine List.Forall₂.cons (fun x v hv => hv) ?_
  refine List.Forall₂.cons (fun x v hv => var_change_mono f g h x v hv) ?_
  refine List.Forall₂.cons (fun x v hv => children_mono f g h x v hv) ?_
  refine List.Forall₂.cons (fun x v hv => hv) ?_
  refine List.Forall₂.cons (fun x v hv => hv) ?_
  exact List.Forall₂.cons (fun x v hv => hv) List.Forall₂.nil

theorem onePass_mono (e : Eval) (f g : SExp → Except Err SExp)
    (h : okMono f g) (r v : SExp) (hp : onePass e f r = .ok v) :
    onePass e g r = .ok v :=
  tryList_mono _ _ (ruleList_mono e f g h) r v hp

theorem optLoop_mono (e : Eval) :
    ∀ fuel, ∀ fuel', fuel ≤ fuel' → ∀ r v,
      optLoop e fuel r = .ok v → optLoop e fuel' r = .ok v := by
  intro fuel
  induction fuel with
  | zero =>
    intro fuel' hle r v hv
    simp only [optLoop] at hv
    cases hv
  | succ f ih =>
    intro fuel' hle r v hv
    obtain ⟨f', rfl⟩ : ∃ f', fuel' = f' + 1 := ⟨fuel' - 1, by omega⟩
    have hff' : f ≤ f' := by omega
    have hclm : okMono (optimize_sexp_ e (f + 1)) (optimize_sexp_ e (f' + 1)) := by
      intro w u hw
      cases w with
      | atom bs => exact hw
      | pair a b => exact ih f' hff' (SExp.pair a b) u hw
    simp only [optLoop] at hv ⊢
    rw [closure_eq e f] at hv
    rw [closure_eq e f']
    by_cases hp : (properList r).isNone = true
    · rw [if_pos hp] at hv ⊢
      exact hv
    · rw [if_neg hp] at hv ⊢
      rcases hop : onePass e (optimize_sexp_ e (f + 1)) r with e2 | r'
      · simp only [hop] at hv
        cases hv
      · simp only [hop] at hv
        simp only [onePass_mono e _ _ hclm r r' hop]
        by_cases hrr : r' = r
        · rw [if_pos hrr] at hv ⊢
          exact hv
        · rw [if_neg hrr] at hv ⊢
          exact ih f' hff' r' v hv

theorem optimize_sexp_mono (e : Eval) (fuel fuel' : Nat) (hle : fuel ≤ fuel')
    (r v : SExp) (hv : optimize_sexp_ e fuel r = .ok v) :
    optimize_sexp_ e fuel' r = .ok v := by
  cases fuel with
  | zero => simp [optimize_sexp_] at hv
  | succ f =>
    cases fuel' with
    | zero => omega
    | succ f' =>
      cases r with
      | atom bs => exact hv
      | pair a b => exact optLoop_mono e f f' (by omega) (SExp.pair a b) v hv

theorem optLoop_result (e : Eval) :
    ∀ fuel r v, optLoop e fuel r = .ok v →
      (properList v).isNone = true ∨
      ∃ h, h ≤ fuel ∧ onePass e (optimize_sexp_ e h) v = .ok v := by
  intro fuel
  induction fuel with
  | zero =>
    intro r v hv
    simp only [optLoop] at hv
    cases hv
  | succ f ih =>
    intro r v hv
    simp only [optLoop] at hv
    rw [closure_eq e f] at hv
    by_cases hp : (properList r).isNone = true
    · rw [if_pos hp] at hv
      obtain rfl : r = v := by simpa using hv
      exact Or.inl hp
    · rw [if_neg hp] at hv
      rcases hop : onePass e (optimize_sexp_ e (f + 1)) r with e2 | r'
      · simp only [hop] at hv
        cases hv
      · simp only [hop] at hv
        by_cases hrr : r' = r
        · rw [if_pos hrr] at hv
          have hrv : r = v := by simpa using hv
          subst hrv
          rw [hrr] at hop
          exact Or.inr ⟨f + 1, by omega, hop⟩
        · rw [if_neg hrr] at hv
          rcases ih r' v hv with h1 | ⟨hh, hhle, hh2⟩
          · exact Or.inl h1
          · exact Or.inr ⟨hh, by omega, hh2⟩

/-- C7: idempotence of the optimizer.  With enough fuel for the first
run, re-optimizing the result (with at least that much fuel) returns it
unchanged. -/
theorem optimize_sexp_idempotent (e : Eval) (fuel fuel' : Nat) (T R : SExp)
    (hle : fuel ≤ fuel') (h : optimize_sexp_ e fuel T = .ok R) :
    optimize_sexp_ e fuel' R = .ok R := by
  cases fuel with
  | zero => simp [optimize_sexp_] at h
  | succ f =>
    cases T with
    | atom bs =>
      obtain rfl : SExp.atom bs = R := by simpa [optimize_sexp_] using h
      cases fuel' with
      | zero => omega
      | succ f' => rfl
    | pair a b =>
      have hloop : optLoop e f (.pair a b) = .ok R := h
      cases f with
      | zero =>
        simp only [optLoop] at hloop
        cases hloop
      | succ f0 =>
        cases fuel' with
        | zero => omega
        | succ f' =>
          have hf' : f0 + 1 ≤ f' := by omega
          rcases optLoop_result e (f0 + 1) (SExp.pair a b) R hloop with
            hnone | ⟨hh, hhle, hpass⟩
          · cases R with
            | atom bs => rfl
            | pair x y =>
              show optLoop e f' (.pair x y) = .ok (.pair x y)
              obtain ⟨f'', rfl⟩ : ∃ f'', f' = f'' + 1 := ⟨f' - 1, by omega⟩
              simp only [optLoop]
              rw [if_pos hnone]
          · cases R with
            | atom bs => rfl
            | pair x y =>
              show optLoop e f' (.pair x y) = .ok (.pair x y)
              obtain ⟨f'', rfl⟩ : ∃ f'', f' = f'' + 1 := ⟨f' - 1, by omega⟩
              simp only [optLoop]
              rw [closure_eq e f'']
              by_cases hp : (properList (SExp.pair x y)).isNone = true
              · rw [if_pos hp]
              · rw [if_neg hp]
                have hclm : okMono (optimize_sexp_ e hh)
                    (optimize_sexp_ e (f'' + 1)) := by
                  intro w u hw
                  exact optimize_sexp_mono e hh (f'' + 1) (by omega) w u hw
                have hmono :
                    onePass e (optimize_sexp_ e (f'' + 1)) (.pair x y) =
                      .ok (.pair x y) :=
                  onePass_mono e _ _ hclm _ _ hpass
                simp only [hmono]
                simp

/-- Witness for C7: `(f (c 0 0))` optimizes to nil, and nil re-optimizes
to itself. -/
theorem optimize_sexp_idempotent_witness :
    optimize_sexp_ errEval 10 TC7 = .ok nilS ∧
    optimize_sexp_ errEval 10 nilS = .ok nilS := by
  constructor
  · decide
  · exact optimize_sexp_idempotent errEval 10 10 TC7 nilS (by omega) (by decide)

/-! ### C8 context: with an adversarial evaluator the loop never reaches
a fixed point, so termination is a property of the external evaluator's
semantics, not of the driver alone. -/

theorem quote_pair_ne (r : SExp) : SExp.pair (.atom [1]) (.pair r r) ≠ r := by
  intro h
  have hs := congrArg sizeOf h
  simp only [SExp.pair.sizeOf_spec, SExp.atom.sizeOf_spec] at hs
  omega

theorem properList_isSome_pair (a b : SExp) :
    (properList (SExp.pair a b)).isSome = (properList b).isSome := by
  simp only [properList]
  rcases properList b with _ | l <;> rfl

theorem tryList_second_changes (c1 c2 : SExp → Except Err SExp)
    (rules : List (SExp → Except Err SExp)) (r q : SExp)
    (h1 : c1 r = .ok r) (h2 : c2 r = .ok q) (hq : q ≠ r) :
    tryList (c1 :: c2 :: rules) r = .ok q := by
  simp [tryList, h1, h2, hq]

theorem grow_loop_diverges :
    ∀ fuel t, (properList t).isSome = true →
      optLoop growEval fuel (.pair (.atom [1]) t) = .error .noFuel := by
  intro fuel
  induction fuel with
  | zero => intro t ht; rfl
  | succ f ih =>
    intro t ht
    have hps : (properList (SExp.pair (.atom [1]) t)).isSome = true := by
      rw [properList_isSome_pair]
      exact ht
    obtain ⟨l, hl⟩ := Option.isSome_iff_exists.mp hps
    have hpass : onePass growEval
        (fun s =>
          match s with
          | SExp.atom _ => Except.ok s
          | SExp.pair _ _ => optLoop growEval f s)
        (.pair (.atom [1]) t) =
        .ok (.pair (.atom [1])
          (.pair (.pair (.atom [1]) t) (.pair (.atom [1]) t))) := by
      unfold onePass ruleList
      exact tryList_second_changes _ _ _ _ _ rfl rfl (quote_pair_ne _)
    simp only [optLoop, hl, Option.isNone_some, Bool.false_eq_true, if_false,
      hpass]
    rw [if_neg (quote_pair_ne _)]
    exact ih (SExp.pair (.pair (.atom [1]) t) (.pair (.atom [1]) t))
      (by rw [properList_isSome_pair]; exact hps)

/-- With the adversarial evaluator, the optimizer exhausts every fuel
bound on the constant node `(16)`: the rewrite loop never reaches a
fixed point, because each pass folds the tree into a strictly larger
quoted constant. -/
theorem optimizer_runs_forever_with_grow_eval :
    ∀ fuel, optimize_sexp_ growEval fuel R16 = .error .noFuel := by
  intro fuel
  cases fuel with
  | zero => rfl
  | succ f =>
    show optLoop growEval f R16 = .error .noFuel
    cases f with
    | zero => rfl
    | succ f0 =>
      have hpass : onePass growEval
          (fun s =>
            match s with
            | SExp.atom _ => Except.ok s
            | SExp.pair _ _ => optLoop growEval f0 s)
          R16 = .ok (.pair (.atom [1]) (.pair R16 R16)) := by
        unfold onePass ruleList
        exact tryList_second_changes _ _ _ _ _ rfl rfl (by decide)
      simp only [optLoop, hpass]
      rw [if_neg (by decide), if_neg (by decide)]
      exact grow_loop_diverges f0 (SExp.pair R16 R16) (by decide)

end ClvmOpt
